import Mathlib

/-!
Shallow embedding of the opencode-dashboard session discovery and enrichment
pipeline (src/opencode/sessions.js and src/opencode/enrichment.js), together
with theorems settling the specification claims.

JavaScript strings are modelled as Lean `String` / `List Char` (the claims only
exercise ASCII data, where JS UTF-16 ordering and Lean code-point ordering
agree); JS numbers appearing in the pipeline are integers and are modelled as
`Int`; `undefined`/`null`-able fields are modelled as `Option`; the filesystem
is an explicit structure of association lists, and `Date.now()` is an explicit
`now : Int` parameter.
-/

/-- JS `\s` whitespace class, restricted to its ASCII members (the only ones the
program's data can contain). -/
def isSpaceChar (c : Char) : Bool :=
  c = ' ' || c = '\t' || c = '\n' || c = '\r' || c = '\x0b' || c = '\x0c'

/-- JS `\w` word-character class: ASCII letters, digits and underscore. -/
def isWordChar (c : Char) : Bool :=
  c.isAlpha || c.isDigit || c = '_'

/-- `String.prototype.toLowerCase`, on ASCII data. -/
def toLowerStr (s : String) : String :=
  String.mk (s.data.map Char.toLower)

/-- Drop leading and trailing whitespace: JS `String.prototype.trim` on ASCII. -/
def trimChars (l : List Char) : List Char :=
  ((l.dropWhile isSpaceChar).reverse.dropWhile isSpaceChar).reverse

/-- JS `String.prototype.trim` on ASCII strings. -/
def trimStr (s : String) : String :=
  String.mk (trimChars s.data)

/-- Whether `pre` is a prefix of `l`, by character equality. -/
def startsWithChars : List Char → List Char → Bool
  | [], _ => true
  | _ :: _, [] => false
  | a :: as, b :: bs => a = b && startsWithChars as bs

/-- Whether `suf` is a suffix of `l`, by character equality. -/
def endsWithChars (suf l : List Char) : Bool :=
  startsWithChars suf.reverse l.reverse

/-- `f.startsWith(pre) && f.endsWith(suf)` — the load-bearing file-name filter
applied to every directory listing. -/
def matchesFilePat (pre suf f : String) : Bool :=
  startsWithChars pre.data f.data && endsWithChars suf.data f.data

/-- JS `String.prototype.includes`: `needle` occurs as a contiguous substring of
`hay`. -/
def containsSub (hay needle : List Char) : Bool :=
  match hay with
  | [] => needle.isEmpty
  | _ :: tl => startsWithChars needle hay || containsSub tl needle

/-- `t.includes(kw)` on strings. -/
def includesKw (t kw : String) : Bool :=
  containsSub t.data kw.data

/-- Thresholds argument of `discoverSessions` (`busyMinutes`, `staleMinutes`),
in minutes. -/
structure Thresholds where
  busyMinutes : Int
  staleMinutes : Int
deriving DecidableEq

/-- `determineStatus` from src/opencode/sessions.js lines 8-12. -/
def determineStatus (ageMinutes : Int) (thresholds : Thresholds) : String :=
  if ageMinutes < thresholds.busyMinutes then "busy"
  else if ageMinutes < thresholds.staleMinutes then "idle"
  else "stale"

/-- `determinePhase` from src/opencode/sessions.js lines 14-23. -/
def determinePhase (title : String) (ageMinutes : Int) (thresholds : Thresholds) : String :=
  let t := toLowerStr title
  if includesKw t "research" || includesKw t "explore" || includesKw t "investigate" then
    "research"
  else if includesKw t "plan" || includesKw t "design" || includesKw t "phase" then
    "planning"
  else if ageMinutes < thresholds.busyMinutes &&
      (includesKw t "implement" || includesKw t "fix" || includesKw t "add") then
    "implementing"
  else if includesKw t "complete" || includesKw t "done" || includesKw t "verify" then
    "done"
  else if ageMinutes < thresholds.busyMinutes then "implementing" else "done"

/-- One stored entry of the cache created by `createCache`
(src/opencode/enrichment.js lines 336-374): the cached `value` together with
the `Date.now()` timestamp recorded by `set`. -/
structure CacheEntry (α : Type) where
  value : α
  timestamp : Int
deriving DecidableEq

/-- The internal `Map` of `createCache`, in insertion order (JS `Map` iterates
its keys in insertion order; `set` on an existing key keeps its position). -/
abbrev CacheMap (α : Type) := List (String × CacheEntry α)

/-- JS `Map.prototype.get`. -/
def mapFind? {α : Type} (k : String) : CacheMap α → Option (CacheEntry α)
  | [] => none
  | (k', v') :: rest => if k' = k then some v' else mapFind? k rest

/-- JS `Map.prototype.set`: overwrite in place if the key is present, else
append at the end of the insertion order. -/
def mapSet {α : Type} (k : String) (v : CacheEntry α) : CacheMap α → CacheMap α
  | [] => [(k, v)]
  | (k', v') :: rest => if k' = k then (k, v) :: rest else (k', v') :: mapSet k v rest

/-- JS `Map.prototype.delete`: remove the entry with the given key. -/
def mapDelete {α : Type} (k : String) : CacheMap α → CacheMap α
  | [] => []
  | (k', v') :: rest => if k' = k then rest else (k', v') :: mapDelete k rest

/-- The `get` method of `createCache` (src/opencode/enrichment.js lines
340-351), with `Date.now()` made the explicit argument `now`. Returns the
looked-up value (`none` models JS `undefined`) and the updated store. -/
def cacheGet {α : Type} (ttlMs : Int) (now : Int) (key : String) (m : CacheMap α) :
    Option α × CacheMap α :=
  match mapFind? key m with
  | none => (none, m)
  | some entry =>
    if now - entry.timestamp > ttlMs then (none, mapDelete key m)
    else (some entry.value, m)

/-- The `set` method of `createCache` (src/opencode/enrichment.js lines
353-364): if the store is at capacity, delete the first key in insertion
order, then insert. -/
def cacheSet {α : Type} (maxSize : Nat) (now : Int) (key : String) (v : α)
    (m : CacheMap α) : CacheMap α :=
  let m' :=
    if m.length ≥ maxSize then
      match m with
      | [] => ([] : CacheMap α)
      | (k0, _) :: _ => mapDelete k0 m
    else m
  mapSet key ⟨v, now⟩ m'

/-- Default time-to-live of `createCache`: 5 minutes in milliseconds. -/
def defaultTtlMs : Int := 5 * 60 * 1000

/-- Default capacity of `createCache`: 1000 entries. -/
def defaultMaxSize : Nat := 1000

/-- Characters the regex class `[.!?]` does not match. -/
def notTerminator (c : Char) : Bool :=
  !(c = '.' || c = '!' || c = '?')

/-- The match of `cleaned.match(/^[^.!?]+[.!?]/)`: the non-empty leading run of
non-terminator characters together with the first terminator, if any. -/
def firstSentence (l : List Char) : Option (List Char) :=
  match l.dropWhile notTerminator with
  | [] => none
  | t :: _ =>
    if (l.takeWhile notTerminator).isEmpty then none
    else some (l.takeWhile notTerminator ++ [t])

/-- One step of `text.replace(/\s+/g, ' ')`: every maximal whitespace run
becomes a single space. -/
def collapseWs : List Char → List Char
  | [] => []
  | [c] => [if isSpaceChar c then ' ' else c]
  | c :: d :: rest =>
    if isSpaceChar c && isSpaceChar d then collapseWs (d :: rest)
    else (if isSpaceChar c then ' ' else c) :: collapseWs (d :: rest)

/-- JS `lastIndexOf(' ')` on a character list: `-1` when there is no space. -/
def lastIndexOfSpace (l : List Char) : Int :=
  match (l.reverse.findIdx? (fun c => c = ' ')) with
  | none => -1
  | some i => (l.length : Int) - 1 - (i : Int)

/-- The truncation tail of `extractFirstSentenceOrTruncate`
(src/opencode/enrichment.js lines 69-82), applied to the cleaned text. The JS
guard `lastSpace > maxLength * 0.7` is written `10 * lastSpace > 7 * maxLength`;
for the only call-site value `maxLength = 60` the double-precision product
`60 * 0.7` is exactly `42`, so the two conditions agree. -/
def truncateClean (cleaned : List Char) (maxLength : Nat) : String :=
  if cleaned.length ≤ maxLength then String.mk cleaned
  else
    let truncated := cleaned.take maxLength
    let lastSpace := lastIndexOfSpace truncated
    if 10 * lastSpace > 7 * (maxLength : Int) then
      String.mk (truncated.take lastSpace.toNat ++ ("...".data))
    else
      String.mk (truncated ++ ("...".data))

/-- `extractFirstSentenceOrTruncate` from src/opencode/enrichment.js lines
53-83 (the `typeof text !== 'string'` guard is subsumed by the `String`
argument type). -/
def extractFirstSentenceOrTruncate (text : String) (maxLength : Nat) : String :=
  let cleaned := trimChars (collapseWs text.data)
  if cleaned.isEmpty then ""
  else
    match firstSentence cleaned with
    | some s =>
      let sentence := trimChars s
      if sentence.length ≤ maxLength then String.mk sentence
      else truncateClean cleaned maxLength
    | none => truncateClean cleaned maxLength

/-- Case-insensitive literal match of a lowercase pattern at the head of a
list, returning the remainder on success. -/
def ciMatch : List Char → List Char → Option (List Char)
  | [], rest => some rest
  | _ :: _, [] => none
  | p :: ps, c :: cs => if c.toLower = p then ciMatch ps cs else none

/-- Attempt of the regex `@(\w+)\s+subagent` (flag `i`) at the head of the
list, returning the capture group. Because `\w` and `\s` are disjoint and
`subagent` begins with a non-space character, the greedy maximal-run match is
the unique one, so no backtracking is modelled. -/
def matchSubagentAt (l : List Char) : Option String :=
  match l with
  | '@' :: rest =>
    let w := rest.takeWhile isWordChar
    let rest2 := rest.dropWhile isWordChar
    if w.isEmpty then none
    else
      let sp := rest2.takeWhile isSpaceChar
      let rest3 := rest2.dropWhile isSpaceChar
      if sp.isEmpty then none
      else
        match ciMatch ("subagent".data) rest3 with
        | some _ => some (String.mk w)
        | none => none
  | _ => none

/-- Leftmost match of `title.match(/@(\w+)\s+subagent/i)`, returning the first
capture group (src/opencode/sessions.js line 66). -/
def subagentSearch : List Char → Option String
  | [] => none
  | c :: cs =>
    match matchSubagentAt (c :: cs) with
    | some w => some w
    | none => subagentSearch cs

/-- `title.match(/@(\w+)\s+subagent/i)`, as the captured agent name. -/
def subagentMatch (title : String) : Option String :=
  subagentSearch title.data

/-- Attempt of the regex `\s*\(@\w+\s+subagent\)` (flag `i`) at the head of the
list, returning the remainder after the matched span. -/
def matchParenAt (l : List Char) : Option (List Char) :=
  match l.dropWhile isSpaceChar with
  | '(' :: '@' :: r2 =>
    let w := r2.takeWhile isWordChar
    let r3 := r2.dropWhile isWordChar
    if w.isEmpty then none
    else
      let sp2 := r3.takeWhile isSpaceChar
      let r4 := r3.dropWhile isSpaceChar
      if sp2.isEmpty then none
      else
        match ciMatch ("subagent".data) r4 with
        | some (')' :: r5) => some r5
        | _ => none
  | _ => none

/-- `title.replace(/\s*\(@\w+\s+subagent\)/i, '')` on the character list:
remove the leftmost match, if any (src/opencode/sessions.js line 70). -/
def stripParenSubagent : List Char → List Char
  | [] => []
  | c :: cs =>
    match matchParenAt (c :: cs) with
    | some rest => rest
    | none => c :: stripParenSubagent cs

/-- A JS value found in a message's `agent` field: the program tolerates both
strings and (integer) numbers there. -/
inductive AgentVal where
  | str (s : String)
  | num (n : Int)
deriving DecidableEq

/-- JS truthiness of an `agent` field value (`message.agent || 'general'`). -/
def AgentVal.truthy : AgentVal → Bool
  | .str s => !s.data.isEmpty
  | .num n => n ≠ 0

/-- JS `toString()` on an `agent` field value. -/
def AgentVal.jsToString : AgentVal → String
  | .str s => s
  | .num n => toString n

/-- JS template-literal rendering of a possibly-`undefined` string
(`${undefined}` prints as `"undefined"`). -/
def jsStr (o : Option String) : String :=
  match o with
  | some s => s
  | none => "undefined"

/-- `v || fallback` on a nullable string, as used for cached titles: `null` and
the empty string fall through to the fallback. -/
def jsOrTitle (v : Option String) (fallback : Option String) : Option String :=
  match v with
  | some t => if t.data.isEmpty then fallback else some t
  | none => fallback

/-- Stable insertion preserving elements for which `le y x` holds before `x`
(`le y x` meaning: the comparator orders `y` before or tied with `x`). -/
def stableInsert {α : Type} (le : α → α → Bool) (x : α) : List α → List α
  | [] => [x]
  | y :: ys => if le y x then y :: stableInsert le x ys else x :: y :: ys

/-- Stable sort by a boolean preorder, modelling the (stable) JS
`Array.prototype.sort`: elements are inserted in listing order behind every
already-placed element the comparator orders before or tied with them. -/
def stableSort {α : Type} (le : α → α → Bool) (l : List α) : List α :=
  l.foldl (fun acc x => stableInsert le x acc) []

/-- Lexicographic (code-point) comparison of character lists: the JS default
sort order on ASCII strings. -/
def leChars : List Char → List Char → Bool
  | [], _ => true
  | _ :: _, [] => false
  | a :: as, b :: bs => if a = b then leChars as bs else decide (a.toNat < b.toNat)

/-- Lexicographic order on strings, via their character lists. -/
def leStr (a b : String) : Bool :=
  leChars a.data b.data

/-- Lexicographic insertion for JS default `Array.prototype.sort` on (ASCII)
file names. -/
def insertStr (x : String) : List String → List String
  | [] => [x]
  | y :: ys => if leStr y x then y :: insertStr x ys else x :: y :: ys

/-- JS default `Array.prototype.sort` on strings (code-unit order; the file
names involved are ASCII, where it agrees with Lean's string order). -/
def sortStrings (l : List String) : List String :=
  l.foldl (fun acc x => insertStr x acc) []

/-- On-disk message record (`msg_*.json`): the fields the pipeline reads.
`none` models an absent field. -/
structure MsgFile where
  id : Option String := none
  role : Option String := none
  timeCreated : Option Int := none
  agent : Option AgentVal := none
deriving DecidableEq

/-- On-disk part record (`prt_*.json`): the fields the pipeline reads.
`toolDescription` models `state.input.description`. -/
structure PartFile where
  type : Option String := none
  text : Option String := none
  toolDescription : Option String := none
deriving DecidableEq

/-- The `summary` object of a session file. -/
structure Summary where
  additions : Int
  deletions : Int
  files : Int
deriving DecidableEq

/-- On-disk session record (`ses_*.json`): the fields `discoverSessions`
reads. `timeUpdated` models `time.updated`; `none` models an absent field. -/
structure RawSession where
  id : Option String := none
  slug : Option String := none
  title : Option String := none
  directory : Option String := none
  timeUpdated : Option Int := none
  parentID : Option String := none
  version : Option String := none
  summary : Option Summary := none
deriving DecidableEq

/-- The normalized session record built by `discoverSessions`
(src/opencode/sessions.js lines 73-90). Fields a JS computation can leave
`undefined`/`null` are `Option`s. -/
structure Session where
  id : Option String
  slug : String
  title : Option String
  description : Option String
  directory : Option String
  projectName : String
  updated : Int
  ageMinutes : Int
  status : String
  phase : String
  agent : Option String
  isSubagent : Bool
  parentID : Option String
  version : Option String
  summary : Summary
  timeUpdated : Option Int
deriving DecidableEq

/-- A `readdir` entry with its `isDirectory()` flag. -/
structure DirEnt where
  name : String
  isDir : Bool
deriving DecidableEq

/-- The storage tree, as the pipeline observes it. Each component is an
association list; a failed lookup models a thrown `readdir`/`readFile`, and a
`some none` file value models unparsable JSON (both are caught and treated
alike by the code). -/
structure FS where
  sessionRoot : Option (List DirEnt) := none
  projectFiles : List (String × List String) := []
  sessionFiles : List ((String × String) × Option RawSession) := []
  messageDirs : List (String × List String) := []
  messageFiles : List ((String × String) × Option MsgFile) := []
  partDirs : List (String × List String) := []
  partFiles : List ((String × String) × Option PartFile) := []

/-- Association-list lookup by decidable equality (JS object/`Map` access). -/
def alistFind? {κ α : Type} [DecidableEq κ] (k : κ) : List (κ × α) → Option α
  | [] => none
  | (k', v') :: rest => if k' = k then some v' else alistFind? k rest

/-- Read and parse one message file; `none` on read or parse failure. -/
def readMsgFile (fs : FS) (sessionID fileName : String) : Option MsgFile :=
  (alistFind? (sessionID, fileName) fs.messageFiles).bind id

/-- Read and parse one part file; `none` on read or parse failure. -/
def readPartFile (fs : FS) (messageID fileName : String) : Option PartFile :=
  (alistFind? (messageID, fileName) fs.partFiles).bind id

/-- `detectAgent` from src/opencode/enrichment.js lines 11-48. -/
def detectAgent (fs : FS) (sessionID : String) : String :=
  match alistFind? sessionID fs.messageDirs with
  | none => "general"
  | some files =>
    let messageFiles :=
      sortStrings (files.filter (fun f => matchesFilePat "msg_" ".json" f))
    match messageFiles with
    | [] => "general"
    | firstFile :: _ =>
      match readMsgFile fs sessionID firstFile with
      | none => "general"
      | some message =>
        let agent :=
          match message.agent with
          | some a => if a.truthy then a.jsToString else "general"
          | none => "general"
        trimStr (toLowerStr agent)

/-- The creation-time sort key `(m.time?.created || 0)` of a message. -/
def msgKey (m : MsgFile) : Int :=
  m.timeCreated.getD 0

/-- The parsed messages of a session in file-listing order: non-`msg_*.json`
names and unreadable or unparsable files are skipped. -/
def collectMessages (fs : FS) (sessionID : String) (files : List String) : List MsgFile :=
  files.filterMap (fun f =>
    if matchesFilePat "msg_" ".json" f then readMsgFile fs sessionID f
    else none)

/-- The part-scanning loop of `extractSemanticTitle`
(src/opencode/enrichment.js lines 139-155): first `prt_*.json` part with
`type === 'text'` and truthy `text` decides the result. -/
def findTextPart (fs : FS) (messageID : String) : List String → Option String
  | [] => none
  | f :: rest =>
    if matchesFilePat "prt_" ".json" f then
      match readPartFile fs messageID f with
      | none => findTextPart fs messageID rest
      | some part =>
        if decide (part.type = some "text") && !(part.text.getD "").data.isEmpty then
          let extracted := extractFirstSentenceOrTruncate (part.text.getD "") 60
          if extracted.data.isEmpty then none else some extracted
        else findTextPart fs messageID rest
    else findTextPart fs messageID rest

/-- `extractSemanticTitle` from src/opencode/enrichment.js lines 92-162. -/
def extractSemanticTitle (fs : FS) (sessionID : String) : Option String :=
  match alistFind? sessionID fs.messageDirs with
  | none => none
  | some files =>
    let messages := collectMessages fs sessionID files
    let sorted := stableSort (fun a b => msgKey a ≤ msgKey b) messages
    match sorted.find? (fun m => decide (m.role = some "user")) with
    | none => none
    | some firstUserMessage =>
      match firstUserMessage.id with
      | none => none
      | some messageID =>
        match alistFind? messageID fs.partDirs with
        | none => none
        | some partNames => findTextPart fs messageID partNames

/-- Node `path.basename` (POSIX): the last path segment, ignoring trailing
slashes. -/
def basename (p : String) : String :=
  let cs := p.data
  let noTrail := (cs.reverse.dropWhile (fun c => c = '/')).reverse
  if noTrail.isEmpty then (if cs.isEmpty then "" else "/")
  else String.mk ((noTrail.reverse.takeWhile (fun c => c ≠ '/')).reverse)

/-- The leading-ISO-date test `title.match(/^\d{4}-\d{2}-\d{2}/)` of
`enrichSessionTitle` (src/opencode/enrichment.js line 422). -/
def matchLeadingDate (t : String) : Bool :=
  match t.data with
  | a :: b :: c :: d :: '-' :: e :: f :: '-' :: g :: h :: _ =>
    a.isDigit && b.isDigit && c.isDigit && d.isDigit &&
    e.isDigit && f.isDigit && g.isDigit && h.isDigit
  | _ => false

/-- The generic-title test of `enrichSessionTitle`
(src/opencode/enrichment.js lines 420-422). -/
def isGenericTitle (title : String) : Bool :=
  startsWithChars ("New session - ".data) title.data || matchLeadingDate title || title.data.isEmpty

/-- The shared enrichment cache: its values are the cached enrichment results,
which for titles can be JS `null` (modelled `none`). -/
abbrev ECache := CacheMap (Option String)

/-- `enrichSessionAgent` from src/opencode/enrichment.js lines 384-408,
threading the cache state and the clock explicitly. A session without an `id`
makes `path.join` throw inside `detectAgent`'s try, yielding `"general"`. -/
def enrichSessionAgent (session : Session) (fs : FS) (cache : ECache) (now : Int) :
    Session × ECache :=
  let cacheKey := "agent_" ++ jsStr session.id ++ "_" ++ toString session.updated
  match cacheGet defaultTtlMs now cacheKey cache with
  | (some cachedAgent, cache') => ({ session with agent := cachedAgent }, cache')
  | (none, cache') =>
    let detectedAgent :=
      match session.id with
      | none => "general"
      | some sid => detectAgent fs sid
    let cache'' := cacheSet defaultMaxSize now cacheKey (some detectedAgent) cache'
    ({ session with agent := some detectedAgent }, cache'')

/-- `enrichSessionTitle` from src/opencode/enrichment.js lines 418-450,
threading the cache state and the clock explicitly. A session without an `id`
makes `path.join` throw inside `extractSemanticTitle`'s try, yielding `null`. -/
def enrichSessionTitle (session : Session) (fs : FS) (cache : ECache) (now : Int) :
    Session × ECache :=
  let title := session.title.getD ""
  if !(isGenericTitle title) then (session, cache)
  else
    let cacheKey :=
      "title_" ++ jsStr session.id ++ "_" ++ toString (session.timeUpdated.getD 0)
    match cacheGet defaultTtlMs now cacheKey cache with
    | (some cachedTitle, cache') =>
      ({ session with title := jsOrTitle cachedTitle session.title }, cache')
    | (none, cache') =>
      let semanticTitle :=
        match session.id with
        | none => none
        | some sid => extractSemanticTitle fs sid
      let cache'' := cacheSet defaultMaxSize now cacheKey semanticTitle cache'
      ({ session with title := jsOrTitle semanticTitle session.title }, cache'')

/-- The base session record built from one parsed session file
(src/opencode/sessions.js lines 54-90). -/
def buildSession (raw : RawSession) (now : Int) (thresholds : Thresholds) : Session :=
  let updated := raw.timeUpdated.getD 0
  let ageMinutes := (now - updated).fdiv 60000
  let status := determineStatus ageMinutes thresholds
  let title := raw.title.getD ""
  let phase := determinePhase title ageMinutes thresholds
  let sub := subagentMatch title
  { id := raw.id
    slug := match raw.slug with
      | some s => if s.data.isEmpty then "unknown" else s
      | none => "unknown"
    title := raw.title
    description := some (match sub with
      | some _ => trimStr (String.mk (stripParenSubagent title.data))
      | none => title)
    directory := raw.directory
    projectName := match raw.directory with
      | some d => if d.data.isEmpty then "unknown" else basename d
      | none => "unknown"
    updated := updated
    ageMinutes := ageMinutes
    status := status
    phase := phase
    agent := some (match sub with
      | some w => w
      | none => "general")
    isSubagent := sub.isSome
    parentID := match raw.parentID with
      | some p => if p.data.isEmpty then none else some p
      | none => none
    version := raw.version
    summary := raw.summary.getD ⟨0, 0, 0⟩
    timeUpdated := raw.timeUpdated }

/-- The per-file loop body of `discoverSessions`
(src/opencode/sessions.js lines 50-108): build the base record, enrich the
agent for non-subagents, enrich the title, and re-point the description at the
(possibly enriched) title for non-subagents. -/
def processSession (raw : RawSession) (fs : FS) (cache : ECache) (now : Int)
    (thresholds : Thresholds) : Session × ECache :=
  let base := buildSession raw now thresholds
  match (if base.isSubagent then (base, cache) else enrichSessionAgent base fs cache now) with
  | (s1, c1) =>
    match enrichSessionTitle s1 fs c1 now with
    | (s2, c2) =>
      if base.isSubagent then (s2, c2)
      else ({ s2 with description := s2.title }, c2)

/-- `discoverSessions` from src/opencode/sessions.js lines 25-117, over the
explicit filesystem, clock and module-level cache state. Returns the sorted
session list together with the final cache state. -/
def discoverSessions (fs : FS) (now : Int) (thresholds : Thresholds) (cache : ECache) :
    List Session × ECache :=
  match fs.sessionRoot with
  | none => ([], cache)
  | some projects =>
    let step := projects.foldl
      (fun (acc : List Session × ECache) project =>
        if !project.isDir || decide (project.name = "global") then acc
        else
          match alistFind? project.name fs.projectFiles with
          | none => acc
          | some files =>
            files.foldl
              (fun (acc2 : List Session × ECache) file =>
                if !(matchesFilePat "ses_" ".json" file) then acc2
                else
                  match (alistFind? (project.name, file) fs.sessionFiles).bind id with
                  | none => acc2
                  | some raw =>
                    let r := processSession raw fs acc2.2 now thresholds
                    (acc2.1 ++ [r.1], r.2))
              acc)
      (([] : List Session), cache)
    (stableSort (fun a b => b.updated ≤ a.updated) step.1, step.2)

/-- The research-keyword test of `determinePhase` (line 17): the lowercased
title contains `research`, `explore` or `investigate`. -/
def researchHit (t : String) : Bool :=
  includesKw t "research" || includesKw t "explore" || includesKw t "investigate"

/-- The planning-keyword test of `determinePhase` (line 18): the lowercased
title contains `plan`, `design` or `phase`. -/
def planningHit (t : String) : Bool :=
  includesKw t "plan" || includesKw t "design" || includesKw t "phase"

/-- The implementing-keyword test of `determinePhase` (line 19): the lowercased
title contains `implement`, `fix` or `add`. -/
def implementHit (t : String) : Bool :=
  includesKw t "implement" || includesKw t "fix" || includesKw t "add"

/-- The done-keyword test of `determinePhase` (line 20): the lowercased title
contains `complete`, `done` or `verify`. -/
def doneHit (t : String) : Bool :=
  includesKw t "complete" || includesKw t "done" || includesKw t "verify"

/-- C2: for thresholds with `busyMinutes < staleMinutes` and any age `a`:
`a < busyMinutes` yields `"busy"`, `busyMinutes ≤ a < staleMinutes` yields
`"idle"`, and `a ≥ staleMinutes` yields `"stale"`. -/
theorem determineStatus_thresholds (a : Int) (th : Thresholds)
    (h : th.busyMinutes < th.staleMinutes) :
    (a < th.busyMinutes → determineStatus a th = "busy") ∧
    (th.busyMinutes ≤ a ∧ a < th.staleMinutes → determineStatus a th = "idle") ∧
    (th.staleMinutes ≤ a → determineStatus a th = "stale") := by
  refine ⟨fun h1 => ?_, fun h1 => ?_, fun h1 => ?_⟩ <;>
    simp only [determineStatus] <;> split_ifs <;> first | rfl | omega

/-- Witness for `determineStatus_thresholds` at thresholds `(5, 30)` and ages
`0`, `10` and `40`. -/
theorem determineStatus_thresholds_witness :
    determineStatus 0 ⟨5, 30⟩ = "busy" ∧ determineStatus 10 ⟨5, 30⟩ = "idle" ∧
      determineStatus 40 ⟨5, 30⟩ = "stale" :=
  ⟨(determineStatus_thresholds 0 ⟨5, 30⟩ (by decide)).1 (by decide),
   (determineStatus_thresholds 10 ⟨5, 30⟩ (by decide)).2.1 (by decide),
   (determineStatus_thresholds 40 ⟨5, 30⟩ (by decide)).2.2 (by decide)⟩

/-- C5: `determinePhase` scans the lowercased title in fixed precedence order —
research keywords, then planning keywords, then (busy and implementing
keywords), then done keywords, then the busy-dependent default — and a title
hitting both the research and the planning keywords classifies as
`"research"`. -/
theorem determinePhase_precedence (title : String) (a : Int) (th : Thresholds) :
    (researchHit (toLowerStr title) = true → determinePhase title a th = "research") ∧
    (researchHit (toLowerStr title) = false → planningHit (toLowerStr title) = true →
      determinePhase title a th = "planning") ∧
    (researchHit (toLowerStr title) = false → planningHit (toLowerStr title) = false →
      a < th.busyMinutes → implementHit (toLowerStr title) = true →
      determinePhase title a th = "implementing") ∧
    (researchHit (toLowerStr title) = false → planningHit (toLowerStr title) = false →
      ¬(a < th.busyMinutes ∧ implementHit (toLowerStr title) = true) →
      doneHit (toLowerStr title) = true → determinePhase title a th = "done") ∧
    (researchHit (toLowerStr title) = false → planningHit (toLowerStr title) = false →
      ¬(a < th.busyMinutes ∧ implementHit (toLowerStr title) = true) →
      doneHit (toLowerStr title) = false →
      determinePhase title a th = (if a < th.busyMinutes then "implementing" else "done")) ∧
    (researchHit (toLowerStr title) = true → planningHit (toLowerStr title) = true →
      determinePhase title a th = "research") := by
  simp only [researchHit, planningHit, implementHit, doneHit, determinePhase]
  refine ⟨fun h1 => ?_, fun h1 h2 => ?_, fun h1 h2 h3 h4 => ?_,
    fun h1 h2 h3 h4 => ?_, fun h1 h2 h3 h4 => ?_, fun h1 h2 => ?_⟩ <;>
    simp_all

/-- Witness for `determinePhase_precedence`: concrete titles exercising each
discharged hypothesis, including the research-beats-planning tie. -/
theorem determinePhase_precedence_witness :
    determinePhase "Research the plan" 10 ⟨5, 30⟩ = "research" ∧
      determinePhase "plan things" 10 ⟨5, 30⟩ = "planning" ∧
      determinePhase "fix stuff" 3 ⟨5, 30⟩ = "implementing" ∧
      determinePhase "verify it" 10 ⟨5, 30⟩ = "done" ∧
      determinePhase "hello" 10 ⟨5, 30⟩ = "done" :=
  ⟨(determinePhase_precedence "Research the plan" 10 ⟨5, 30⟩).2.2.2.2.2
      (by decide) (by decide),
   (determinePhase_precedence "plan things" 10 ⟨5, 30⟩).2.1 (by decide) (by decide),
   (determinePhase_precedence "fix stuff" 3 ⟨5, 30⟩).2.2.1 (by decide) (by decide)
      (by decide) (by decide),
   (determinePhase_precedence "verify it" 10 ⟨5, 30⟩).2.2.2.1 (by decide) (by decide)
      (by decide) (by decide),
   (determinePhase_precedence "hello" 10 ⟨5, 30⟩).2.2.2.2.1 (by decide) (by decide)
      (by decide) (by decide)⟩

/-- After `mapSet k v`, looking up `k` finds exactly `v`. -/
theorem mapFind?_mapSet_self {α : Type} (k : String) (v : CacheEntry α) (m : CacheMap α) :
    mapFind? k (mapSet k v m) = some v := by
  induction m with
  | nil => simp [mapSet, mapFind?]
  | cons hd tl ih =>
    obtain ⟨k', v'⟩ := hd
    by_cases h : k' = k <;> simp [mapSet, mapFind?, h, ih]

/-- `mapSet k v` does not change the binding of any other key. -/
theorem mapFind?_mapSet_ne {α : Type} {k k' : String} (h : k' ≠ k) (v : CacheEntry α)
    (m : CacheMap α) : mapFind? k' (mapSet k v m) = mapFind? k' m := by
  induction m with
  | nil => simp [mapSet, mapFind?, Ne.symm h]
  | cons hd tl ih =>
    obtain ⟨k0, v0⟩ := hd
    by_cases h0 : k0 = k
    · subst h0
      simp [mapSet, mapFind?, Ne.symm h]
    · simp [mapSet, mapFind?, h0, ih]

/-- A key absent from the key list has no binding. -/
theorem mapFind?_eq_none_of_not_mem {α : Type} {k : String} {m : CacheMap α}
    (h : k ∉ m.map Prod.fst) : mapFind? k m = none := by
  induction m with
  | nil => rfl
  | cons hd tl ih =>
    obtain ⟨k0, v0⟩ := hd
    simp only [List.map_cons, List.mem_cons] at h
    push_neg at h
    simp [mapFind?, Ne.symm h.1, ih h.2]

/-- `mapDelete` does not change the binding of any other key. -/
theorem mapFind?_mapDelete_ne {α : Type} {k k' : String} (h : k' ≠ k) (m : CacheMap α) :
    mapFind? k' (mapDelete k m) = mapFind? k' m := by
  induction m with
  | nil => rfl
  | cons hd tl ih =>
    obtain ⟨k0, v0⟩ := hd
    by_cases h0 : k0 = k
    · subst h0
      simp [mapDelete, mapFind?, Ne.symm h]
    · simp [mapDelete, mapFind?, h0, ih]

/-- Deleting a key from a store with duplicate-free keys removes its binding. -/
theorem mapFind?_mapDelete_self {α : Type} {k : String} {m : CacheMap α}
    (hnd : (m.map Prod.fst).Nodup) : mapFind? k (mapDelete k m) = none := by
  induction m with
  | nil => rfl
  | cons hd tl ih =>
    obtain ⟨k0, v0⟩ := hd
    simp only [List.map_cons, List.nodup_cons] at hnd
    by_cases h0 : k0 = k
    · subst h0
      simp only [mapDelete, if_pos rfl]
      exact mapFind?_eq_none_of_not_mem hnd.1
    · simp [mapDelete, mapFind?, h0, ih hnd.2]

/-- Inserting a fresh key grows the store by exactly one entry. -/
theorem length_mapSet_of_none {α : Type} {k : String} {m : CacheMap α}
    (h : mapFind? k m = none) (v : CacheEntry α) :
    (mapSet k v m).length = m.length + 1 := by
  induction m with
  | nil => rfl
  | cons hd tl ih =>
    obtain ⟨k0, v0⟩ := hd
    by_cases h0 : k0 = k
    · simp [mapFind?, h0] at h
    · simp only [mapFind?, if_neg h0] at h
      simp [mapSet, h0, ih h]

/-- C4: `cacheGet` returns the stored value while the entry's age (time since
the timestamp its last `set` recorded) is within the time-to-live, returns
`undefined` for keys that were never set or whose entry has outlived the
time-to-live, deletes the expired entry as a side effect of the read, and a
`set` entry carries its insertion time as timestamp. An entry is never absent
while `now - timestamp ≤ ttl`. -/
theorem cacheGet_ttl {α : Type} (ttl now : Int) (key : String) (m : CacheMap α)
    (hnd : (m.map Prod.fst).Nodup) :
    (mapFind? key m = none → cacheGet ttl now key m = (none, m)) ∧
    (∀ e, mapFind? key m = some e →
      (now - e.timestamp ≤ ttl → cacheGet ttl now key m = (some e.value, m)) ∧
      (now - e.timestamp > ttl →
        cacheGet ttl now key m = (none, mapDelete key m) ∧
        mapFind? key (mapDelete key m) = none)) ∧
    (∀ (maxSize : Nat) (v : α) (t : Int),
      mapFind? key (cacheSet maxSize t key v m) = some ⟨v, t⟩) := by
  refine ⟨fun h => ?_, fun e he => ⟨fun hle => ?_, fun hgt => ⟨?_, ?_⟩⟩, fun ms v t => ?_⟩
  · simp [cacheGet, h]
  · have hc : ¬(now - e.timestamp > ttl) := by omega
    rw [cacheGet, he]
    simp only [if_neg hc]
  · rw [cacheGet, he]
    simp only [if_pos hgt]
  · exact mapFind?_mapDelete_self hnd
  · simp only [cacheSet]
    split
    · split
      · exact mapFind?_mapSet_self key ⟨v, t⟩ _
      · exact mapFind?_mapSet_self key ⟨v, t⟩ _
    · exact mapFind?_mapSet_self key ⟨v, t⟩ _

/-- Witness for `cacheGet_ttl` on a one-entry store: a hit inside the TTL, a
miss-and-evict after it, and an absent key. -/
theorem cacheGet_ttl_witness :
    cacheGet 100 50 "k" [("k", (⟨5, 0⟩ : CacheEntry Nat))] = (some 5, [("k", ⟨5, 0⟩)]) ∧
      cacheGet 100 101 "k" [("k", (⟨5, 0⟩ : CacheEntry Nat))] = (none, []) ∧
      cacheGet 100 50 "other" [("k", (⟨5, 0⟩ : CacheEntry Nat))] =
        (none, [("k", ⟨5, 0⟩)]) :=
  ⟨((cacheGet_ttl 100 50 "k" [("k", ⟨5, 0⟩)] (by decide)).2.1 ⟨5, 0⟩ (by decide)).1
      (by decide),
   (by
      have h := ((cacheGet_ttl 100 101 "k" [("k", ⟨5, 0⟩)] (by decide)).2.1 ⟨5, 0⟩
        (by decide)).2 (by decide)
      exact h.1.trans (by decide)),
   (cacheGet_ttl 100 50 "other" [("k", ⟨5, 0⟩)] (by decide)).1 (by decide)⟩

/-- Overwriting an existing key leaves the entry count unchanged. -/
theorem length_mapSet_of_some {α : Type} {k : String} {m : CacheMap α} {e : CacheEntry α}
    (h : mapFind? k m = some e) (v : CacheEntry α) :
    (mapSet k v m).length = m.length := by
  induction m with
  | nil => simp [mapFind?] at h
  | cons hd tl ih =>
    obtain ⟨k0, v0⟩ := hd
    by_cases h0 : k0 = k
    · simp [mapSet, h0]
    · simp only [mapFind?, if_neg h0] at h
      simp [mapSet, h0, ih h]

/-- C3 counterexample: with the store `["a", "b"]` at its capacity of 2 and the
key `"b"` already present, `set "b"` still evicts the oldest entry `"a"` —
refuting the claim that a `set` of an already-present key evicts nothing. -/
theorem cacheSet_overwrite_at_capacity_evicts :
    mapFind? "b" [("a", (⟨1, 0⟩ : CacheEntry Nat)), ("b", ⟨2, 1⟩)] = some ⟨2, 1⟩ ∧
      [("a", (⟨1, 0⟩ : CacheEntry Nat)), ("b", ⟨2, 1⟩)].length = 2 ∧
      cacheSet 2 2 "b" 3 [("a", ⟨1, 0⟩), ("b", ⟨2, 1⟩)] = [("b", ⟨3, 2⟩)] ∧
      mapFind? "a" (cacheSet 2 2 "b" 3 [("a", ⟨1, 0⟩), ("b", ⟨2, 1⟩)]) = none := by
  decide

/-- C3 (amended): when `set` is called on a store at capacity whose oldest key
differs from the written key, the single oldest-inserted entry is evicted
(FIFO, regardless of whether the written key is already present), every other
entry keeps its binding, the written key maps to the new value, and for a
fresh key the entry count is unchanged; below capacity, `set` overwrites or
inserts and evicts nothing. -/
theorem cacheSet_fifo_eviction {α : Type} (maxSize : Nat) (m : CacheMap α) (key : String)
    (v : α) (now : Int) (hnd : (m.map Prod.fst).Nodup) :
    (∀ k0 e0 rest, m = (k0, e0) :: rest → m.length = maxSize → k0 ≠ key →
      mapFind? k0 (cacheSet maxSize now key v m) = none ∧
      (∀ k', k' ≠ k0 → k' ≠ key →
        mapFind? k' (cacheSet maxSize now key v m) = mapFind? k' m) ∧
      mapFind? key (cacheSet maxSize now key v m) = some ⟨v, now⟩ ∧
      (mapFind? key m = none → (cacheSet maxSize now key v m).length = m.length)) ∧
    (m.length < maxSize →
      mapFind? key (cacheSet maxSize now key v m) = some ⟨v, now⟩ ∧
      (∀ k', k' ≠ key → mapFind? k' (cacheSet maxSize now key v m) = mapFind? k' m) ∧
      (∀ e, mapFind? key m = some e →
        (cacheSet maxSize now key v m).length = m.length)) := by
  constructor
  · intro k0 e0 rest hm hlen hk0
    subst hm
    have hred : cacheSet maxSize now key v ((k0, e0) :: rest) = mapSet key ⟨v, now⟩ rest := by
      simp only [cacheSet]
      rw [if_pos (ge_of_eq hlen)]
      simp [mapDelete]
    simp only [List.map_cons, List.nodup_cons] at hnd
    refine ⟨?_, fun k' hk'0 hk'key => ?_, ?_, fun hnone => ?_⟩
    · rw [hred, mapFind?_mapSet_ne hk0, mapFind?_eq_none_of_not_mem hnd.1]
    · rw [hred, mapFind?_mapSet_ne hk'key]
      simp [mapFind?, Ne.symm hk'0]
    · rw [hred]
      exact mapFind?_mapSet_self key ⟨v, now⟩ rest
    · simp only [mapFind?, if_neg hk0] at hnone
      rw [hred, length_mapSet_of_none hnone]
      simp
  · intro hlt
    have hred : cacheSet maxSize now key v m = mapSet key ⟨v, now⟩ m := by
      simp only [cacheSet]
      rw [if_neg (by omega)]
    refine ⟨?_, fun k' hk' => ?_, fun e he => ?_⟩
    · rw [hred]
      exact mapFind?_mapSet_self key ⟨v, now⟩ m
    · rw [hred, mapFind?_mapSet_ne hk']
    · rw [hred, length_mapSet_of_some he]

/-- Witness for `cacheSet_fifo_eviction`: the capacity-3 store `["k1","k2",
"k3"]` receiving the fresh key `"k4"` loses exactly `"k1"`, and a below-capacity
overwrite of `"k1"` evicts nothing. -/
theorem cacheSet_fifo_eviction_witness :
    mapFind? "k1" (cacheSet 3 10 "k4" (4 : Nat)
        [("k1", ⟨1, 0⟩), ("k2", ⟨2, 1⟩), ("k3", ⟨3, 2⟩)]) = none ∧
      mapFind? "k2" (cacheSet 3 10 "k4" (4 : Nat)
        [("k1", ⟨1, 0⟩), ("k2", ⟨2, 1⟩), ("k3", ⟨3, 2⟩)]) = some ⟨2, 1⟩ ∧
      mapFind? "k4" (cacheSet 3 10 "k4" (4 : Nat)
        [("k1", ⟨1, 0⟩), ("k2", ⟨2, 1⟩), ("k3", ⟨3, 2⟩)]) = some ⟨4, 10⟩ ∧
      (cacheSet 3 10 "k4" (4 : Nat)
        [("k1", ⟨1, 0⟩), ("k2", ⟨2, 1⟩), ("k3", ⟨3, 2⟩)]).length = 3 ∧
      mapFind? "k2" (cacheSet 3 10 "k1" (9 : Nat) [("k1", ⟨1, 0⟩), ("k2", ⟨2, 1⟩)]) =
        some ⟨2, 1⟩ := by
  have h := cacheSet_fifo_eviction 3 [("k1", (⟨1, 0⟩ : CacheEntry Nat)),
    ("k2", ⟨2, 1⟩), ("k3", ⟨3, 2⟩)] "k4" 4 10 (by decide)
  have h1 := h.1 "k1" ⟨1, 0⟩ [("k2", ⟨2, 1⟩), ("k3", ⟨3, 2⟩)] rfl (by decide) (by decide)
  have h2 := cacheSet_fifo_eviction 3 [("k1", (⟨1, 0⟩ : CacheEntry Nat)),
    ("k2", ⟨2, 1⟩)] "k1" 9 10 (by decide)
  refine ⟨h1.1, ?_, h1.2.2.1, ?_, ?_⟩
  · rw [h1.2.1 "k2" (by decide) (by decide)]
    decide
  · rw [h1.2.2.2 (by decide)]
    decide
  · rw [(h2.2 (by decide)).2.1 "k2" (by decide)]
    decide

/-- A list with a first sentence is non-empty. -/
theorem firstSentence_ne_nil {l : List Char} {s : List Char}
    (h : firstSentence l = some s) : l ≠ [] := by
  intro he
  subst he
  simp [firstSentence] at h

/-- `isEmpty` is `false` on non-empty lists. -/
theorem isEmpty_false_of_ne_nil {l : List Char} (h : l ≠ []) : l.isEmpty = false := by
  cases l with
  | nil => exact absurd rfl h
  | cons a t => rfl

/-- A list all of whose characters avoid `.`, `!`, `?` has no first sentence. -/
theorem firstSentence_eq_none_of_all {l : List Char}
    (h : ∀ c ∈ l, notTerminator c = true) : firstSentence l = none := by
  rw [firstSentence, List.dropWhile_eq_nil_iff.mpr h]

/-- `lastIndexOfSpace` is below the length of the list. -/
theorem lastIndexOfSpace_le (l : List Char) :
    lastIndexOfSpace l ≤ (l.length : Int) - 1 := by
  rw [lastIndexOfSpace]
  cases h : l.reverse.findIdx? (fun c => c = ' ') with
  | none =>
    show (-1 : Int) ≤ (l.length : Int) - 1
    omega
  | some i =>
    show (l.length : Int) - 1 - (i : Int) ≤ (l.length : Int) - 1
    omega

/-- C6: `extractFirstSentenceOrTruncate` at its call-site maximum length 60
returns `"Implement X."` on `"Implement X. More detail."`; in general it
returns a leading sentence (terminal punctuation included) whose trimmed
length is at most 60; and on whitespace-collapsed text with no sentence
punctuation and length above 60 it returns a truncation ending in the
ellipsis marker of total length at most 63, cutting back to the last space of
the 60-character window when that space lies in the window's last 30 percent
(index above 42) and cutting at character 60 otherwise. -/
theorem extractFirstSentenceOrTruncate_spec (text : String) :
    extractFirstSentenceOrTruncate "Implement X. More detail." 60 = "Implement X." ∧
    (∀ s, firstSentence (trimChars (collapseWs text.data)) = some s →
      (trimChars s).length ≤ 60 →
      extractFirstSentenceOrTruncate text 60 = String.mk (trimChars s)) ∧
    ((∀ c ∈ trimChars (collapseWs text.data), notTerminator c = true) →
      (trimChars (collapseWs text.data)).length > 60 →
      (extractFirstSentenceOrTruncate text 60).length ≤ 63 ∧
      (∃ pre, (extractFirstSentenceOrTruncate text 60).data = pre ++ ("...".data)) ∧
      (10 * lastIndexOfSpace ((trimChars (collapseWs text.data)).take 60) > 420 →
        extractFirstSentenceOrTruncate text 60 =
          String.mk (((trimChars (collapseWs text.data)).take 60).take
            (lastIndexOfSpace ((trimChars (collapseWs text.data)).take 60)).toNat ++
            ("...".data))) ∧
      (10 * lastIndexOfSpace ((trimChars (collapseWs text.data)).take 60) ≤ 420 →
        extractFirstSentenceOrTruncate text 60 =
          String.mk ((trimChars (collapseWs text.data)).take 60 ++ ("...".data)))) := by
  refine ⟨by decide, fun s hs hlen => ?_, fun hall hlong => ?_⟩
  · have hne := firstSentence_ne_nil hs
    simp only [extractFirstSentenceOrTruncate, isEmpty_false_of_ne_nil hne,
      Bool.false_eq_true, if_false, hs, if_pos hlen]
  · have hfs : firstSentence (trimChars (collapseWs text.data)) = none :=
      firstSentence_eq_none_of_all hall
    have hne : trimChars (collapseWs text.data) ≠ [] := by
      intro he
      rw [he] at hlong
      simp at hlong
    have hgt : ¬((trimChars (collapseWs text.data)).length ≤ 60) := by omega
    have hres : extractFirstSentenceOrTruncate text 60 =
        truncateClean (trimChars (collapseWs text.data)) 60 := by
      simp only [extractFirstSentenceOrTruncate, isEmpty_false_of_ne_nil hne,
        Bool.false_eq_true, if_false, hfs]
    have htl : ((trimChars (collapseWs text.data)).take 60).length = 60 := by
      rw [List.length_take]
      omega
    have hls := lastIndexOfSpace_le ((trimChars (collapseWs text.data)).take 60)
    rw [htl] at hls
    by_cases hsp : 10 * lastIndexOfSpace ((trimChars (collapseWs text.data)).take 60) > 420
    · have hcut : extractFirstSentenceOrTruncate text 60 =
          String.mk (((trimChars (collapseWs text.data)).take 60).take
            (lastIndexOfSpace ((trimChars (collapseWs text.data)).take 60)).toNat ++
            ("...".data)) := by
        rw [hres]
        simp only [truncateClean, if_neg hgt]
        rw [if_pos (by exact_mod_cast hsp)]
      refine ⟨?_, ⟨_, by rw [hcut]⟩, fun _ => hcut, fun hc => absurd hsp (by omega)⟩
      rw [hcut]
      show (((trimChars (collapseWs text.data)).take 60).take
        (lastIndexOfSpace ((trimChars (collapseWs text.data)).take 60)).toNat ++
        ("...".data)).length ≤ 63
      rw [List.length_append, List.length_take, htl]
      have : (lastIndexOfSpace ((trimChars (collapseWs text.data)).take 60)).toNat ≤ 59 := by
        omega
      simp only [List.length]
      omega
    · have hcut : extractFirstSentenceOrTruncate text 60 =
          String.mk ((trimChars (collapseWs text.data)).take 60 ++ ("...".data)) := by
        rw [hres]
        simp only [truncateClean, if_neg hgt]
        rw [if_neg (by exact_mod_cast hsp)]
      refine ⟨?_, ⟨_, by rw [hcut]⟩, fun hc => absurd hc hsp, fun _ => hcut⟩
      rw [hcut]
      show ((trimChars (collapseWs text.data)).take 60 ++ ("...".data)).length ≤ 63
      rw [List.length_append, htl]
      simp only [List.length]
      omega

/-- Witness for `extractFirstSentenceOrTruncate_spec`: the sentence case at
`"Fix auth bug. Detail."` and the no-punctuation truncation case on a long
keyword list with a space at index 53 of the 60-character window. -/
theorem extractFirstSentenceOrTruncate_spec_witness :
    extractFirstSentenceOrTruncate "Fix auth bug. Detail." 60 = "Fix auth bug." ∧
      extractFirstSentenceOrTruncate
        "aaaaaaaaaa bbbbbbbbbb cccccccccc dddddddddd eeeeeeeeee ffffffffff gggggggggg" 60 =
        "aaaaaaaaaa bbbbbbbbbb cccccccccc dddddddddd eeeeeeeeee..." :=
  ⟨by
    have h := (extractFirstSentenceOrTruncate_spec "Fix auth bug. Detail.").2.1
      ("Fix auth bug.".data) (by decide) (by decide)
    exact h.trans (by decide),
   by
    have h := ((extractFirstSentenceOrTruncate_spec
      "aaaaaaaaaa bbbbbbbbbb cccccccccc dddddddddd eeeeeeeeee ffffffffff gggggggggg").2.2
      (by decide) (by decide)).2.2.1 (by decide)
    exact h.trans (by decide)⟩

/-- Characters with equal code points are equal. -/
theorem char_eq_of_toNat_eq {a b : Char} (h : a.toNat = b.toNat) : a = b := by
  apply Char.eq_of_val_eq
  apply UInt32.eq_of_val_eq
  exact Fin.eq_of_val_eq h

/-- `leChars` is reflexive. -/
theorem leChars_refl (a : List Char) : leChars a a = true := by
  induction a with
  | nil => rfl
  | cons x xs ih => rw [leChars, if_pos rfl]; exact ih

/-- `leChars` is total. -/
theorem leChars_total (a b : List Char) : leChars a b = true ∨ leChars b a = true := by
  induction a generalizing b with
  | nil => left; rfl
  | cons x xs ih =>
    cases b with
    | nil => right; rfl
    | cons y ys =>
      by_cases hxy : x = y
      · subst hxy
        rw [leChars, leChars, if_pos rfl, if_pos rfl]
        exact ih ys
      · rw [leChars, leChars, if_neg hxy, if_neg (Ne.symm hxy)]
        have : x.toNat ≠ y.toNat := fun h => hxy (char_eq_of_toNat_eq h)
        simp only [decide_eq_true_eq]
        omega

/-- `leChars` is transitive. -/
theorem leChars_trans : ∀ {a b c : List Char},
    leChars a b = true → leChars b c = true → leChars a c = true := by
  intro a
  induction a with
  | nil => intro b c _ _; rfl
  | cons x xs ih =>
    intro b c hab hbc
    cases b with
    | nil => simp [leChars] at hab
    | cons y ys =>
      cases c with
      | nil => simp [leChars] at hbc
      | cons z zs =>
        rw [leChars] at hab hbc ⊢
        by_cases hxy : x = y
        · subst hxy
          rw [if_pos rfl] at hab
          by_cases hyz : x = z
          · subst hyz
            rw [if_pos rfl] at hbc ⊢
            exact ih hab hbc
          · rw [if_neg hyz] at hbc ⊢
            exact hbc
        · rw [if_neg hxy] at hab
          simp only [decide_eq_true_eq] at hab
          by_cases hyz : y = z
          · subst hyz
            rw [if_neg hxy]
            simp only [decide_eq_true_eq]
            exact hab
          · rw [if_neg hyz] at hbc
            simp only [decide_eq_true_eq] at hbc
            have hxz : x ≠ z := by
              intro he
              subst he
              have : x.toNat ≠ y.toNat := fun h => hxy (char_eq_of_toNat_eq h)
              omega
            rw [if_neg hxz]
            simp only [decide_eq_true_eq]
            omega

/-- `insertStr` inserts its element: the result is a permutation of consing. -/
theorem insertStr_perm (x : String) (l : List String) : (insertStr x l).Perm (x :: l) := by
  induction l with
  | nil => exact List.Perm.refl _
  | cons y ys ih =>
    rw [insertStr]
    by_cases h : leStr y x = true
    · rw [if_pos h]
      exact (ih.cons y).trans (List.Perm.swap x y ys)
    · rw [if_neg h]

/-- `insertStr` preserves sortedness. -/
theorem sorted_insertStr {x : String} {l : List String}
    (h : l.Sorted (fun a b => leStr a b = true)) :
    (insertStr x l).Sorted (fun a b => leStr a b = true) := by
  induction l with
  | nil => simp [insertStr]
  | cons y ys ih =>
    rw [List.sorted_cons] at h
    rw [insertStr]
    by_cases hle : leStr y x = true
    · rw [if_pos hle, List.sorted_cons]
      refine ⟨fun b hb => ?_, ih h.2⟩
      rcases List.mem_cons.mp ((insertStr_perm x ys).mem_iff.mp hb) with hb | hb
      · rw [hb]
        exact hle
      · exact h.1 b hb
    · rw [if_neg hle, List.sorted_cons]
      refine ⟨fun b hb => ?_, List.sorted_cons.mpr h⟩
      have hxy : leStr x y = true := by
        rcases leChars_total x.data y.data with hc | hc
        · exact hc
        · exact absurd hc hle
      rcases List.mem_cons.mp hb with hb | hb
      · rw [hb]; exact hxy
      · exact leChars_trans hxy (h.1 b hb)

/-- `sortStrings` permutes its input. -/
theorem sortStrings_perm (l : List String) : (sortStrings l).Perm l := by
  suffices h : ∀ (l acc : List String),
      (l.foldl (fun acc x => insertStr x acc) acc).Perm (acc ++ l) by
    simpa using h l []
  intro l
  induction l with
  | nil => intro acc; simp
  | cons x xs ih =>
    intro acc
    rw [List.foldl_cons]
    refine (ih (insertStr x acc)).trans ?_
    refine ((insertStr_perm x acc).append_right xs).trans ?_
    exact List.perm_middle.symm

/-- `sortStrings` sorts its input lexicographically. -/
theorem sortStrings_sorted (l : List String) :
    (sortStrings l).Sorted (fun a b => leStr a b = true) := by
  suffices h : ∀ (l acc : List String), acc.Sorted (fun a b => leStr a b = true) →
      (l.foldl (fun acc x => insertStr x acc) acc).Sorted (fun a b => leStr a b = true) by
    exact h l [] (by simp)
  intro l
  induction l with
  | nil => intro acc h; simpa using h
  | cons x xs ih =>
    intro acc h
    rw [List.foldl_cons]
    exact ih _ (sorted_insertStr h)

/-- The head of `sortStrings` is a lexicographic minimum of the input. -/
theorem sortStrings_head_min {l : List String} {f : String} {rest : List String}
    (h : sortStrings l = f :: rest) : f ∈ l ∧ ∀ g ∈ l, leStr f g = true := by
  have hp := sortStrings_perm l
  rw [h] at hp
  have hs := sortStrings_sorted l
  rw [h, List.sorted_cons] at hs
  refine ⟨hp.mem_iff.mp (List.mem_cons_self f rest), fun g hg => ?_⟩
  rcases List.mem_cons.mp (hp.mem_iff.mpr hg) with hgf | hgr
  · rw [hgf]; exact leChars_refl f.data
  · exact hs.1 g hgr

/-- C9: `detectAgent` reads the lexicographically first `msg_*.json` file of
the session's message directory and returns its `agent` field stringified,
lowercased and trimmed; a missing directory, no matching file, an unreadable
or unparsable first file, a missing `agent` field, or a falsy `agent` field
all yield `"general"` instead of an error. -/
theorem detectAgent_spec (fs : FS) (sid : String) :
    (alistFind? sid fs.messageDirs = none → detectAgent fs sid = "general") ∧
    (∀ files, alistFind? sid fs.messageDirs = some files →
      (sortStrings (files.filter (fun f => matchesFilePat "msg_" ".json" f)) = [] →
        detectAgent fs sid = "general") ∧
      (∀ f rest,
        sortStrings (files.filter (fun f => matchesFilePat "msg_" ".json" f)) = f :: rest →
        (f ∈ files.filter (fun f => matchesFilePat "msg_" ".json" f) ∧
          ∀ g ∈ files.filter (fun f => matchesFilePat "msg_" ".json" f), leStr f g = true) ∧
        (readMsgFile fs sid f = none → detectAgent fs sid = "general") ∧
        (∀ msg, readMsgFile fs sid f = some msg →
          (msg.agent = none → detectAgent fs sid = "general") ∧
          (∀ a, msg.agent = some a → a.truthy = true →
            detectAgent fs sid = trimStr (toLowerStr a.jsToString)) ∧
          (∀ a, msg.agent = some a → a.truthy = false →
            detectAgent fs sid = "general")))) := by
  refine ⟨fun h => ?_, fun files hf => ⟨fun hempty => ?_, fun f rest hsort => ?_⟩⟩
  · simp only [detectAgent, h]
  · simp only [detectAgent, hf, hempty]
  · refine ⟨sortStrings_head_min hsort, fun hread => ?_, fun msg hmsg => ?_⟩
    · simp only [detectAgent, hf, hsort, hread]
    · refine ⟨fun hno => ?_, fun a ha htr => ?_, fun a ha htr => ?_⟩
      · simp only [detectAgent, hf, hsort, hmsg, hno]
        decide
      · simp only [detectAgent, hf, hsort, hmsg, ha]
        rw [if_pos htr]
      · simp only [detectAgent, hf, hsort, hmsg, ha]
        rw [if_neg (by simp [htr])]
        decide

/-- Message-directory fixture whose single message carries the agent field
`"  BUILD  "`. -/
def fsBuildAgent : FS :=
  { messageDirs := [("s1", ["msg_001.json"])]
    messageFiles := [(("s1", "msg_001.json"), some { agent := some (.str "  BUILD  ") })] }

/-- Message-directory fixture whose single message carries the numeric agent
field `123`. -/
def fsNumAgent : FS :=
  { messageDirs := [("s1", ["msg_001.json"])]
    messageFiles := [(("s1", "msg_001.json"), some { agent := some (.num 123) })] }

/-- Witness for `detectAgent_spec`: a string `agent` `"  BUILD  "` normalizes
to `"build"`, a numeric `agent` `123` stringifies to `"123"`, and a session
with no message directory falls back to `"general"`. -/
theorem detectAgent_spec_witness :
    detectAgent fsBuildAgent "s1" = "build" ∧
      detectAgent fsNumAgent "s1" = "123" ∧
      detectAgent { messageDirs := [] } "nosuch" = "general" :=
  ⟨by
    have h := ((((detectAgent_spec fsBuildAgent "s1").2 ["msg_001.json"]
      (by decide)).2 "msg_001.json" [] (by decide)).2.2
      { agent := some (.str "  BUILD  ") } (by decide)).2.1 (.str "  BUILD  ") rfl
      (by decide)
    exact h.trans (by decide),
   by
    have h := ((((detectAgent_spec fsNumAgent "s1").2 ["msg_001.json"]
      (by decide)).2 "msg_001.json" [] (by decide)).2.2
      { agent := some (.num 123) } (by decide)).2.1 (.num 123) rfl (by decide)
    exact h.trans (by decide),
   (detectAgent_spec { messageDirs := [] } "nosuch").1 (by decide)⟩

/-- `enrichSessionTitle` can change only the `title` field (and the cache). -/
theorem enrichSessionTitle_fields (s : Session) (fs : FS) (c : ECache) (now : Int) :
    (enrichSessionTitle s fs c now).1.isSubagent = s.isSubagent ∧
    (enrichSessionTitle s fs c now).1.agent = s.agent ∧
    (enrichSessionTitle s fs c now).1.description = s.description := by
  simp only [enrichSessionTitle]
  split
  · exact ⟨rfl, rfl, rfl⟩
  · split <;> exact ⟨rfl, rfl, rfl⟩

/-- `enrichSessionAgent` can change only the `agent` field (and the cache). -/
theorem enrichSessionAgent_fields (s : Session) (fs : FS) (c : ECache) (now : Int) :
    (enrichSessionAgent s fs c now).1.title = s.title ∧
    (enrichSessionAgent s fs c now).1.isSubagent = s.isSubagent ∧
    (enrichSessionAgent s fs c now).1.description = s.description := by
  simp only [enrichSessionAgent]
  split <;> exact ⟨rfl, rfl, rfl⟩

/-- Shared helper: the subagent-marker facts about `buildSession` and
`processSession`, used by the marker claims below. -/
theorem subagentFacts (raw : RawSession) (now : Int) (th : Thresholds)
    (fs : FS) (cache : ECache) :
    (∀ name, subagentMatch (raw.title.getD "") = some name →
      (buildSession raw now th).isSubagent = true ∧
      (buildSession raw now th).agent = some name ∧
      (buildSession raw now th).description =
        some (trimStr (String.mk (stripParenSubagent (raw.title.getD "").data))) ∧
      (processSession raw fs cache now th).1.isSubagent = true ∧
      (processSession raw fs cache now th).1.agent = some name ∧
      (processSession raw fs cache now th).1.description =
        some (trimStr (String.mk (stripParenSubagent (raw.title.getD "").data)))) ∧
    (subagentMatch (raw.title.getD "") = none →
      (buildSession raw now th).agent = some "general" ∧
      (buildSession raw now th).isSubagent = false ∧
      (buildSession raw now th).description = some (raw.title.getD "")) := by
  constructor
  · intro name hm
    have h1 : (buildSession raw now th).isSubagent = true := by
      simp [buildSession, hm]
    have h2 : (buildSession raw now th).agent = some name := by
      simp [buildSession, hm]
    have h3 : (buildSession raw now th).description =
        some (trimStr (String.mk (stripParenSubagent (raw.title.getD "").data))) := by
      simp [buildSession, hm]
    have hfields := enrichSessionTitle_fields (buildSession raw now th) fs cache now
    have hp : (processSession raw fs cache now th).1 =
        (enrichSessionTitle (buildSession raw now th) fs cache now).1 := by
      simp only [processSession, h1, if_true]
    exact ⟨h1, h2, h3,
      by rw [hp, hfields.1, h1],
      by rw [hp, hfields.2.1, h2],
      by rw [hp, hfields.2.2, h3]⟩
  · intro hm
    refine ⟨?_, ?_, ?_⟩ <;> simp [buildSession, hm]

/-- C7: a session file whose title carries the subagent marker is returned by
the discovery loop body with `isSubagent = true`, `agent` the captured name,
and `description` the title with the parenthesized marker removed and
trimmed; a title without the marker gets `agent = "general"`,
`isSubagent = false` and `description` equal to the title in the base record
(src/opencode/sessions.js lines 62-71). -/
theorem subagent_marker_spec (raw : RawSession) (now : Int) (th : Thresholds)
    (fs : FS) (cache : ECache) :
    (∀ name, subagentMatch (raw.title.getD "") = some name →
      (buildSession raw now th).isSubagent = true ∧
      (buildSession raw now th).agent = some name ∧
      (buildSession raw now th).description =
        some (trimStr (String.mk (stripParenSubagent (raw.title.getD "").data))) ∧
      (processSession raw fs cache now th).1.isSubagent = true ∧
      (processSession raw fs cache now th).1.agent = some name ∧
      (processSession raw fs cache now th).1.description =
        some (trimStr (String.mk (stripParenSubagent (raw.title.getD "").data)))) ∧
    (subagentMatch (raw.title.getD "") = none →
      (buildSession raw now th).agent = some "general" ∧
      (buildSession raw now th).isSubagent = false ∧
      (buildSession raw now th).description = some (raw.title.getD "")) :=
  subagentFacts raw now th fs cache

/-- Witness for `subagent_marker_spec`: the title
`"Task description (@coder subagent)"` and the marker-free title `"hello"`. -/
theorem subagent_marker_spec_witness :
    (buildSession { title := some "Task description (@coder subagent)" } 0 ⟨5, 30⟩).isSubagent
        = true ∧
      (buildSession { title := some "Task description (@coder subagent)" } 0 ⟨5, 30⟩).agent
        = some "coder" ∧
      (buildSession { title := some "Task description (@coder subagent)" } 0 ⟨5, 30⟩).description
        = some "Task description" ∧
      (buildSession { title := some "hello" } 0 ⟨5, 30⟩).agent = some "general" ∧
      (buildSession { title := some "hello" } 0 ⟨5, 30⟩).isSubagent = false ∧
      (buildSession { title := some "hello" } 0 ⟨5, 30⟩).description = some "hello" := by
  have h := (subagent_marker_spec { title := some "Task description (@coder subagent)" }
    0 ⟨5, 30⟩ { } []).1 "coder" (by decide)
  have h2 := (subagent_marker_spec { title := some "hello" } 0 ⟨5, 30⟩ { } []).2 (by decide)
  exact ⟨h.1, h.2.1, h.2.2.1.trans (by decide), h2.1, h2.2.1, h2.2.2.trans (by decide)⟩

/-- C10: when the title carries the bare marker `@name subagent` but no
parenthesized `(@name subagent)` occurrence (so the strip regex finds nothing
to remove), the discovery loop still flags the session as a subagent with the
captured agent name, while the returned description keeps the full
(already-trimmed) title, marker included. -/
theorem bare_subagent_marker_spec (raw : RawSession) (fs : FS) (cache : ECache)
    (now : Int) (th : Thresholds) (name : String)
    (hm : subagentMatch (raw.title.getD "") = some name)
    (hs : stripParenSubagent (raw.title.getD "").data = (raw.title.getD "").data)
    (ht : trimChars (raw.title.getD "").data = (raw.title.getD "").data) :
    (processSession raw fs cache now th).1.isSubagent = true ∧
    (processSession raw fs cache now th).1.agent = some name ∧
    (processSession raw fs cache now th).1.description = some (raw.title.getD "") := by
  have h := (subagentFacts raw now th fs cache).1 name hm
  refine ⟨h.2.2.2.1, h.2.2.2.2.1, ?_⟩
  rw [h.2.2.2.2.2, hs]
  show some (String.mk (trimChars (raw.title.getD "").data)) = _
  rw [ht]

/-- Witness for `bare_subagent_marker_spec` at the title
`"Fix bug @coder subagent"`. -/
theorem bare_subagent_marker_spec_witness :
    (processSession { title := some "Fix bug @coder subagent" } { } [] 0 ⟨5, 30⟩).1.isSubagent
        = true ∧
      (processSession { title := some "Fix bug @coder subagent" } { } [] 0 ⟨5, 30⟩).1.agent
        = some "coder" ∧
      (processSession { title := some "Fix bug @coder subagent" } { } [] 0 ⟨5, 30⟩).1.description
        = some "Fix bug @coder subagent" :=
  bare_subagent_marker_spec { title := some "Fix bug @coder subagent" } { } [] 0 ⟨5, 30⟩
    "coder" (by decide) (by decide) (by decide)

/-- The storage tree of the repository's own test `should include global
directory sessions` (tests/sessions.test.js): one parseable session file under
the first-level project directory named exactly `"global"`. -/
def globalTestFS (upd : Int) : FS :=
  { sessionRoot := some [⟨"global", true⟩]
    projectFiles := [("global", ["ses_global.json"])]
    sessionFiles := [(("global", "ses_global.json"), some
      { id := some "global-session", slug := some "global-test",
        title := some "Global Session", directory := some "/test/global/path",
        timeUpdated := some upd })] }

/-- C1 (code bug): on the test fixture with one valid session under
`session/global/`, `discoverSessions` returns the empty list — the
`project.name === 'global'` guard (src/opencode/sessions.js line 37) skips the
directory even though the session file is present and parseable, contradicting
the repository's own test, which expects the session to be included. -/
theorem discoverSessions_skips_global (now upd : Int) (th : Thresholds) (cache : ECache) :
    discoverSessions (globalTestFS upd) now th cache = ([], cache) ∧
    alistFind? ("global", "ses_global.json") (globalTestFS upd).sessionFiles ≠ none := by
  constructor
  · rfl
  · simp [globalTestFS, alistFind?]

/-- Non-generic titles skip title enrichment entirely: the session is returned
unchanged and the cache is neither read nor written. -/
theorem enrichSessionTitle_not_generic (s : Session) (fs : FS) (c : ECache) (now : Int)
    (h : isGenericTitle (s.title.getD "") = false) :
    enrichSessionTitle s fs c now = (s, c) := by
  simp only [enrichSessionTitle, h, Bool.not_false, if_true]

/-- The discovery loop body returns the raw title untouched whenever that
title is not generic. -/
theorem processSession_title_not_generic (raw : RawSession) (fs : FS) (cache : ECache)
    (now : Int) (th : Thresholds)
    (h : isGenericTitle (raw.title.getD "") = false) :
    (processSession raw fs cache now th).1.title = raw.title := by
  have hbt : (buildSession raw now th).title = raw.title := by simp [buildSession]
  by_cases hsub : (buildSession raw now th).isSubagent = true
  · have he := enrichSessionTitle_not_generic (buildSession raw now th) fs cache now
      (by rw [hbt]; exact h)
    simp only [processSession, hsub, if_true, he]
    exact hbt
  · have hsub' : (buildSession raw now th).isSubagent = false := by
      simpa using hsub
    rcases ha : enrichSessionAgent (buildSession raw now th) fs cache now with ⟨s1, c1⟩
    have hat : s1.title = raw.title := by
      have hfl := (enrichSessionAgent_fields (buildSession raw now th) fs cache now).1
      rw [ha] at hfl
      exact hfl.trans hbt
    have he := enrichSessionTitle_not_generic s1 fs c1 now (by rw [hat]; exact h)
    simp only [processSession, hsub', Bool.false_eq_true, if_false, ha, he]
    exact hat

/-- The session tree of the end-to-end fixture: one session file titled
`"Build authentication system"`, with arbitrary message and part trees. -/
def buildAuthFS (mdirs : List (String × List String))
    (mfiles : List ((String × String) × Option MsgFile))
    (pdirs : List (String × List String))
    (pfiles : List ((String × String) × Option PartFile)) : FS :=
  { sessionRoot := some [⟨"proj", true⟩]
    projectFiles := [("proj", ["ses_auth.json"])]
    sessionFiles := [(("proj", "ses_auth.json"), some
      { id := some "ses_auth1", title := some "Build authentication system",
        directory := some "/home/user/authproj", timeUpdated := some 1700000000000 })]
    messageDirs := mdirs
    messageFiles := mfiles
    partDirs := pdirs
    partFiles := pfiles }

/-- The raw session record of `buildAuthFS`. -/
def authRaw : RawSession :=
  { id := some "ses_auth1", title := some "Build authentication system",
    directory := some "/home/user/authproj", timeUpdated := some 1700000000000 }

/-- C8: `enrichSessionTitle` returns a session with a non-generic title
unchanged, with the cache untouched (so its result does not depend on the
cache); end-to-end, `discoverSessions` returns the session titled
`"Build authentication system"` with that title, whatever the message and part
trees and the cache contain. -/
theorem non_generic_title_unchanged :
    (∀ (s : Session) (fs : FS) (c : ECache) (now : Int),
      isGenericTitle (s.title.getD "") = false → enrichSessionTitle s fs c now = (s, c)) ∧
    (∀ (mdirs : List (String × List String))
      (mfiles : List ((String × String) × Option MsgFile))
      (pdirs : List (String × List String))
      (pfiles : List ((String × String) × Option PartFile))
      (cache : ECache) (now : Int) (th : Thresholds),
      ((discoverSessions (buildAuthFS mdirs mfiles pdirs pfiles) now th cache).1.map
        Session.title) = [some "Build authentication system"]) := by
  refine ⟨enrichSessionTitle_not_generic, fun mdirs mfiles pdirs pfiles cache now th => ?_⟩
  have hred : (discoverSessions (buildAuthFS mdirs mfiles pdirs pfiles) now th cache).1 =
      [(processSession authRaw (buildAuthFS mdirs mfiles pdirs pfiles) cache now th).1] :=
    rfl
  rw [hred, List.map_cons, List.map_nil,
    processSession_title_not_generic authRaw _ cache now th (by decide)]
  rfl

/-- Witness for `non_generic_title_unchanged`: the concrete base session built
from the title `"Build authentication system"` with an empty cache, and the
end-to-end fixture with empty message and part trees. -/
theorem non_generic_title_unchanged_witness :
    enrichSessionTitle (buildSession { title := some "Build authentication system" } 0 ⟨5, 30⟩)
        { } [] 0 =
      (buildSession { title := some "Build authentication system" } 0 ⟨5, 30⟩, []) ∧
    ((discoverSessions (buildAuthFS [] [] [] []) 0 ⟨5, 30⟩ []).1.map Session.title) =
      [some "Build authentication system"] :=
  ⟨non_generic_title_unchanged.1 _ { } [] 0 (by decide),
   non_generic_title_unchanged.2 [] [] [] [] [] 0 ⟨5, 30⟩⟩
